import Mathlib

/-!
# Verification of the link resolution and repair engine

Shallow embedding of the link tooling of this repository
(`scripts/link_campaign.py`, `scripts/simple_link_campaign.py`,
`scripts/check_links.py`) and proofs about it.

Modelling conventions:
* Python strings are Lean `String`s; `str.split(c)`, `'/'.join`,
  `str.lower()`, `str.startswith`, `str.endswith` are given explicit
  executable definitions below with the same semantics.
* `os.path` functions (`dirname`, `basename`, `normpath`, `relpath`,
  `join`) are modelled on the `/`-separated segment lists of the path
  strings, with POSIX semantics (the scripts run on forward-slash paths;
  `relpath` never raises on POSIX relative inputs, so the
  `except ValueError: distance = 1000` branch is unreachable and omitted).
* A document's content is modelled as the sequence of markdown reference
  tokens `[text](link)` that `MARKDOWN_LINK_PATTERN.findall` extracts
  from it; replacement of the exact syntax `[text](old)` rewrites every
  token with that text and link, and `re.search` for the exact syntax is
  membership of such a token.
* Existence on the filesystem (`os.path.exists`) is membership of the
  normalized path in the indexed file set: the corpus under the root is
  exactly the set of indexed markdown files, and paths escaping the root
  are treated as non-existent.
-/

/-- Python `str.split(c)` on a character list: splits at every occurrence
of `c`, keeping empty chunks (`"".split(c) == ['']`). -/
def splitChar (c : Char) : List Char → List (List Char)
  | [] => [[]]
  | x :: xs =>
    let r := splitChar c xs
    if x = c then [] :: r
    else (x :: r.headD []) :: r.tail

/-- Python `c.join(chunks)`: interleaves the separator. -/
def joinChar (c : Char) : List (List Char) → List Char
  | [] => []
  | [x] => x
  | x :: y :: ys => x ++ c :: joinChar c (y :: ys)

/-- Python `path.split('/')`. -/
def splitPath (s : String) : List String :=
  (splitChar '/' s.data).map String.mk

/-- Python `'/'.join(segments)`. -/
def joinPath (l : List String) : String :=
  ⟨joinChar '/' (l.map String.data)⟩

/-- Model of `os.path.basename` of a `/`-separated path: its last segment. -/
def basenameOf (s : String) : String :=
  (splitPath s).getLastD ""

/-- Model of `os.path.dirname` at segment level: drop the last segment. -/
def dirOf (l : List String) : List String := l.dropLast

/-- Python `str.lower()`. -/
def lowerStr (s : String) : String := ⟨s.data.map Char.toLower⟩

/-- Python `str.startswith(p)`. -/
def startsWithS (s p : String) : Bool := List.isPrefixOf p.data s.data

/-- Python `str.endswith(p)`. -/
def endsWithS (s p : String) : Bool := List.isSuffixOf p.data s.data

/-- Python `s[1:]`. -/
def dropFirst (s : String) : String := ⟨s.data.drop 1⟩

/-- Split a character list at the LAST occurrence of `c`:
`breakLast c l = some (before, after)` when `c` occurs. This is the
semantics of the greedy regex `(.*)#(.*)` used by `ANCHOR_PATTERN`. -/
def breakLast (c : Char) : List Char → Option (List Char × List Char)
  | [] => none
  | x :: xs =>
    match breakLast c xs with
    | some (a, b) => some (x :: a, b)
    | none => if x = c then some ([], xs) else none

/-- Model of `ANCHOR_PATTERN = re.compile(r'(.*)#(.*)')` applied with `.match`:
split a target at its last `#` into path part and anchor. -/
def splitLastHash (s : String) : String × Option String :=
  match breakLast '#' s.data with
  | some (a, b) => (⟨a⟩, some ⟨b⟩)
  | none => (s, none)

/-- Python `link.split('#')[0]`: everything before the FIRST `#`. -/
def stripAnchorFirst (s : String) : String :=
  ⟨(splitChar '#' s.data).headD []⟩

/-- Model of `os.path.normpath` on the segments of a relative path: drop empty
and `.` segments; `..` pops the previous real segment, leading `..`s
are kept. `acc` is the stack of emitted segments, in reverse. -/
def normAcc (acc : List String) : List String → List String
  | [] => acc.reverse
  | s :: rest =>
    if s = "" ∨ s = "." then normAcc acc rest
    else if s = ".." then
      match acc with
      | [] => normAcc [".."] rest
      | t :: acc' => if t = ".." then normAcc (s :: t :: acc') rest else normAcc acc' rest
    else normAcc (s :: acc) rest

def normSegs (l : List String) : List String := normAcc [] l

/-- Model of `os.path.relpath(target, start)` on clean segment lists: strip the
common prefix, then one `..` per remaining `start` segment followed by
the remaining `target` segments.  (Python returns the string `"."` when
the result is empty; callers of `relSegs` handle that case.) -/
def relSegs : List String → List String → List String
  | t, [] => t
  | [], b :: s' => (b :: s').map (fun _ => "..")
  | a :: t', b :: s' =>
    if a = b then relSegs t' s' else (b :: s').map (fun _ => "..") ++ (a :: t')

/-- Model of `len(os.path.relpath(...).split('/'))`: the empty relative path
prints as `"."`, whose split has length 1. -/
def pyDist (r : List String) : Nat :=
  if r.isEmpty then 1 else r.length

/-- First element of the list attaining the minimal score.  Python
builds the `matches` list in iteration order, sorts it stably by
distance (`matches.sort(key=lambda x: x[1])`) and takes `matches[0]`;
the head of a stable sort is exactly the first minimal element. -/
def firstMinBy {α : Type} (f : α → Nat) : List α → Option α
  | [] => none
  | x :: xs =>
    match firstMinBy f xs with
    | none => some x
    | some y => if f y < f x then some y else some x

/-- First element attaining the maximal score (Python
`sort(key=..., reverse=True)` stable, then take the head). -/
def firstMaxBy {α : Type} (f : α → Nat) : List α → Option α
  | [] => none
  | x :: xs =>
    match firstMaxBy f xs with
    | none => some x
    | some y => if f x < f y then some y else some x

/-- Python `dict` membership / indexing for the override table
(`custom_mappings`), as an association list. -/
def lookupOv : List (String × String) → String → Option String
  | [], _ => none
  | (k, v) :: rest, q => if k = q then some v else lookupOv rest q

/-- A well-formed path segment: non-empty, not a dot-segment, and free
of `#` (real indexed file names contain no fragment marker). -/
def goodSeg (s : String) : Prop :=
  s ≠ "" ∧ s ≠ "." ∧ s ≠ ".." ∧ '#' ∉ s.data

instance (s : String) : Decidable (goodSeg s) := by
  unfold goodSeg; infer_instance

/-- A clean repository-relative path: every `/`-separated segment is
well formed.  Paths produced by `os.walk` + `os.path.relpath` in
`scan_all_files` are of this shape. -/
def CleanPath (p : String) : Prop :=
  ∀ s ∈ splitPath p, goodSeg s

instance (p : String) : Decidable (CleanPath p) := by
  unfold CleanPath; infer_instance

/-- One markdown reference token `[text](link)` as extracted by
`MARKDOWN_LINK_PATTERN.findall`. -/
structure Ref where
  text : String
  link : String
deriving DecidableEq

/-- One entry of `LinkDatabase.broken_links`. -/
structure BrokenInfo where
  source : String
  text : String
  link : String
  suggested_fix : Option String
deriving DecidableEq

/-- Which branch of the resolver produced a suggestion (the spec's
`ResolutionResult.source`): the override table, the first filename scan,
or the fallback filename scan. -/
inductive MatchSource
  | override
  | exactScan
  | ciScan
deriving DecidableEq

/-- A resolver suggestion together with the branch that produced it. -/
structure FBMResult where
  suggestion : String
  origin : MatchSource
deriving DecidableEq

namespace LC

/-!
## `scripts/link_campaign.py` (`LinkDatabase`)

`find_best_match`, `check_links` and `fix_links` of the `LinkDatabase`
class.  `self.all_files` is a Python `set`; it is modelled as a
`List String` capturing one concrete iteration order of that set (the
order is not fixed across runs, which is what claim C7 is about).
-/

/-- Condition of the first candidate scan:
`file.lower().endswith('/' + target_file.lower())`. -/
def exactScanPred (tf file : String) : Bool :=
  endsWithS (lowerStr file) ("/" ++ lowerStr tf)

/-- Condition of the fallback scan:
`os.path.basename(file).lower() == target_file.lower()`. -/
def ciScanPred (tf file : String) : Bool :=
  lowerStr (basenameOf file) = lowerStr tf

/-- Candidate selection of `find_best_match`: the first scan over
`all_files`, and — only when it produced no match (`if not matches:`)
— the fallback scan. -/
def scanOf (files : List String) (tf : String) : List String × MatchSource :=
  let exact := files.filter (exactScanPred tf)
  if exact.isEmpty then (files.filter (ciScanPred tf), MatchSource.ciScan)
  else (exact, MatchSource.exactScan)

def candidatesOf (files : List String) (tf : String) : List String :=
  (scanOf files tf).1

/-- Distance of a candidate `file` from `source_file`:
`len(os.path.relpath(dirname(file), dirname(source_file)).split('/'))`
(with `"."` substituted for an empty dirname, which is the semantics of
`relSegs` on `[]`). -/
def distance (source_file file : String) : Nat :=
  pyDist (relSegs (dirOf (splitPath file)) (dirOf (splitPath source_file)))

/-- Heuristic part of `find_best_match` (everything after the override
check): extract the last path component of the link, split off the
anchor at its last `#`, scan for candidates, pick the
minimal-distance one, and return its path relative to the source
document's directory with the anchor re-appended.  The re-append is
guarded by Python's `if anchor:` truthiness check, so an empty anchor
(a target ending in `#`) is dropped, exactly like a missing one. -/
def heuristicSuggestion (files : List String) (broken_link source_file : String) :
    Option FBMResult :=
  let pa := splitLastHash ((splitPath broken_link).getLastD "")
  let sc := scanOf files pa.1
  match firstMinBy (distance source_file) sc.1 with
  | none => none
  | some best =>
    let rel := relSegs (splitPath best) (dirOf (splitPath source_file))
    let relStr := if rel.isEmpty then "." else joinPath rel
    match pa.2 with
    | some a => if a = "" then some ⟨relStr, sc.2⟩ else some ⟨relStr ++ "#" ++ a, sc.2⟩
    | none => some ⟨relStr, sc.2⟩

/-- Model of `LinkDatabase.find_best_match(broken_link, source_file)`.  Returns
the suggestion string together with the branch that produced it (the
Python function returns only the string; the branch tag is the spec's
`ResolutionResult.source`). -/
def find_best_match (mappings : List (String × String)) (files : List String)
    (broken_link source_file : String) : Option FBMResult :=
  match lookupOv mappings broken_link with
  | some v => some ⟨v, MatchSource.override⟩
  | none => heuristicSuggestion files broken_link source_file

/-- The skip condition of `check_links`:
`link.startswith(('http://', 'https://', '#', '/'))`. -/
def skipLC (link : String) : Bool :=
  startsWithS link "http://" || startsWithS link "https://" ||
    startsWithS link "#" || startsWithS link "/"

/-- Model of `normpath(join(dirname(join(ROOT_DIR, source_file)), link_path))`,
relative to the root. -/
def resolveLink (source_file link_path : String) : List String :=
  normSegs (dirOf (splitPath source_file) ++ splitPath link_path)

/-- The body of the `check_links` loop for a single extracted reference:
`none` when the reference is skipped or its target exists, otherwise the
`broken_links` entry recorded for it. -/
def linkStatus (mappings : List (String × String)) (files : List String)
    (source : String) (r : Ref) : Option BrokenInfo :=
  if skipLC r.link then none
  else
    let link_path := stripAnchorFirst r.link
    if link_path = "" then none
    else
      let resolved := resolveLink source link_path
      if files.any (fun f => splitPath f = resolved) then none
      else
        some ⟨source, r.text, r.link,
          (find_best_match mappings files r.link source).map FBMResult.suggestion⟩

/-- Model of `check_links` restricted to one source document whose content is the
list of extracted references. -/
def checkFile (mappings : List (String × String)) (files : List String)
    (source : String) (content : List Ref) : List BrokenInfo :=
  content.filterMap (linkStatus mappings files source)

/-- Stable insertion for the descending-by-link-length sort
`links.sort(key=lambda x: len(x['link']), reverse=True)`: under `foldr`,
`x` is inserted in front of the already-sorted later entries, going
before the first entry of at most its length — so entries of equal
length keep their original relative order, as Python's stable sort
does. -/
def insertLenDesc (x : BrokenInfo) : List BrokenInfo → List BrokenInfo
  | [] => [x]
  | y :: ys =>
    if y.link.length ≤ x.link.length then x :: y :: ys else y :: insertLenDesc x ys

def sortByLinkLenDesc (l : List BrokenInfo) : List BrokenInfo :=
  l.foldr insertLenDesc []

/-- Model of `re.search(re.escape('[text](old)'), content)` on the token model:
the exact original syntax occurs in the current content. -/
def patternPresent (content : List Ref) (text lnk : String) : Bool :=
  content.any (fun r => r.text = text && r.link = lnk)

/-- Model of `re.sub` of the exact syntax `[text](old)` by `[text](new)`:
rewrite every occurrence. -/
def applyFix (content : List Ref) (text oldL newL : String) : List Ref :=
  content.map (fun r => if r.text = text && r.link = oldL then ⟨r.text, newL⟩ else r)

/-- One iteration of the `fix_links` per-file loop, acting on
`(updated_content, fixed_links, manual_review)`. -/
def fixStep (st : List Ref × List BrokenInfo × List BrokenInfo) (li : BrokenInfo) :
    List Ref × List BrokenInfo × List BrokenInfo :=
  match li.suggested_fix with
  | some fixS =>
    if patternPresent st.1 li.text li.link then
      (applyFix st.1 li.text li.link fixS, st.2.1 ++ [li], st.2.2)
    else (st.1, st.2.1, st.2.2 ++ [li])
  | none => (st.1, st.2.1, st.2.2 ++ [li])

def fixState (content : List Ref) (ls : List BrokenInfo) :
    List Ref × List BrokenInfo × List BrokenInfo :=
  ls.foldl fixStep (content, [], [])

/-- Result of `fix_links` on one source document: the rewritten content,
the `fixed_links` and `manual_review` entries contributed by it, and
whether the file was written back
(`if content != updated_content: ... f.write(...)`). -/
structure FixOutcome where
  newContent : List Ref
  fixed : List BrokenInfo
  manual : List BrokenInfo
  written : Bool
deriving DecidableEq

def fixFileLinks (content : List Ref) (links : List BrokenInfo) : FixOutcome :=
  let st := fixState content (sortByLinkLenDesc links)
  ⟨st.1, st.2.1, st.2.2, decide (st.1 ≠ content)⟩

end LC

namespace SimpleLC

/-!
## `scripts/simple_link_campaign.py`

`find_best_match`, `check_links_in_file` and `fix_links_in_file` of the
flat-function variant.  Note that this variant never strips anchors: the
basename and the resolved path keep any `#fragment` verbatim.
-/

/-- Candidate selection of the simple variant: a case-sensitive exact
basename scan, then — only when it is empty — a case-insensitive
basename scan. -/
def scanOf (files : List String) (filename : String) : List String × MatchSource :=
  let exact := files.filter (fun f => basenameOf f = filename)
  if exact.isEmpty then
    (files.filter (fun f => lowerStr (basenameOf f) = lowerStr filename),
      MatchSource.ciScan)
  else (exact, MatchSource.exactScan)

/-- Model of `similarity_score`: number of shared leading segments between the
source directory and the candidate directory, where `os.path.dirname`
is taken on the strings (so a root-level file has dirname `""`, whose
split is `[""]`). -/
def simScore (source_file match_path : String) : Nat :=
  let sp := splitPath (joinPath (dirOf (splitPath source_file)))
  let mp := splitPath (joinPath (dirOf (splitPath match_path)))
  go sp mp
where
  go : List String → List String → Nat
    | a :: as, b :: bs => if a = b then go as bs + 1 else 0
    | _, _ => 0

/-- Model of `find_best_match(broken_link, source_file)` of the simple variant. -/
def find_best_match (mappings : List (String × String)) (files : List String)
    (broken_link source_file : String) : Option FBMResult :=
  match lookupOv mappings broken_link with
  | some v => some ⟨v, MatchSource.override⟩
  | none =>
    let filename := basenameOf broken_link
    let sc := scanOf files filename
    match firstMaxBy (simScore source_file) sc.1 with
    | none => none
    | some best =>
      let rel := relSegs (splitPath best) (dirOf (splitPath source_file))
      some ⟨if rel.isEmpty then "." else joinPath rel, sc.2⟩

/-- Skip condition of `check_links_in_file`:
`link_path.startswith(('http://', 'https://', 'mailto:', '#'))`. -/
def skipSimple (link : String) : Bool :=
  startsWithS link "http://" || startsWithS link "https://" ||
    startsWithS link "mailto:" || startsWithS link "#"

/-- Model of `normpath(os.path.join(source_dir, link_path))`: a leading `/`
resets the join to an absolute path outside the corpus root, which the
model reports as unresolvable (non-existent). -/
def resolveSimple (source_file link : String) : Option (List String) :=
  if startsWithS link "/" then none
  else some (normSegs (dirOf (splitPath source_file) ++ splitPath link))

/-- The body of the `check_links_in_file` loop for one reference:
`none` when skipped or existing, the broken entry otherwise (the simple
variant computes suggestions in a later pass, so none is recorded
here). -/
def linkStatus (files : List String) (source : String) (r : Ref) :
    Option BrokenInfo :=
  if skipSimple r.link then none
  else
    match resolveSimple source r.link with
    | none => some ⟨source, r.text, r.link, none⟩
    | some resolved =>
      if files.any (fun f => splitPath f = resolved) then none
      else some ⟨source, r.text, r.link, none⟩

end SimpleLC

namespace CheckLinks

/-!
## `scripts/check_links.py`

`check_links_in_file`: report-only checker over the `docs/` tree.  The
index root is the `docs` directory, and file paths carry the `docs/`
prefix (they come from `Path("docs").rglob("*.md")`).
-/

/-- Python whitespace for `str.split()` with no separator: space, tab,
newline, carriage return, vertical tab, form feed. -/
def isPySpace (c : Char) : Bool :=
  c = ' ' || c = '\t' || c = '\n' || c = '\r' || c = '\x0b' || c = '\x0c'

/-- Model of `link_url = match.group(2).split()[0]`: the first maximal
run of non-whitespace characters of the raw target (the URL part before
any markdown title).  An all-whitespace target raises IndexError in the
program, caught by the per-file handler; the model returns the empty
string there, which the skip condition then drops. -/
def firstWord (s : String) : String :=
  ⟨(s.data.dropWhile isPySpace).takeWhile (fun c => !isPySpace c)⟩

/-- Skip condition: `link_url.startswith('http')`, `mailto:`, `#`, or
empty. -/
def skipCL (link : String) : Bool :=
  startsWithS link "http" || startsWithS link "mailto:" ||
    startsWithS link "#" || (link = "")

/-- Target resolution: `Path("docs") / link_url[1:]` for a leading `/`,
else `file_path.parent / link_url`; `.resolve()` normalizes.  The
pathlib `/` operator discards its left operand when the right operand is
itself absolute, so a protocol-relative `//…` target is checked at the
filesystem root, outside the corpus — modelled as unresolvable
(`none`, hence non-existent). -/
def resolveTarget (source_file link : String) : Option (List String) :=
  if startsWithS link "/" then
    if startsWithS (dropFirst link) "/" then none
    else some (normSegs ("docs" :: splitPath (dropFirst link)))
  else some (normSegs (dirOf (splitPath source_file) ++ splitPath link))

/-- Whether one reference is reported as a broken link: the raw target
is first cut at whitespace (`split()[0]`), then skipped or resolved and
existence-checked. -/
def linkBroken (files : List String) (source_file raw : String) : Bool :=
  if skipCL (firstWord raw) then false
  else
    match resolveTarget source_file (firstWord raw) with
    | none => true
    | some resolved => !(files.any (fun f => splitPath f = resolved))

end CheckLinks

/-!
## Lemmas about the string and path primitives
-/

theorem String.mk_data (s : String) : String.mk s.data = s := rfl

theorem splitChar_ne_nil (c : Char) (l : List Char) : splitChar c l ≠ [] := by
  cases l with
  | nil => simp [splitChar]
  | cons x xs =>
    simp only [splitChar]
    split <;> simp

theorem splitChar_no_sep (c : Char) (l : List Char) (h : c ∉ l) :
    splitChar c l = [l] := by
  induction l with
  | nil => rfl
  | cons x xs ih =>
    have hx : ¬x = c := by
      rintro rfl
      exact h (List.mem_cons_self x xs)
    have hxs : c ∉ xs := fun hm => h (List.mem_cons_of_mem _ hm)
    simp [splitChar, hx, ih hxs]

theorem splitChar_append_cons (c : Char) (x r : List Char) (h : c ∉ x) :
    splitChar c (x ++ c :: r) = x :: splitChar c r := by
  induction x with
  | nil => simp [splitChar]
  | cons a as ih =>
    have ha : ¬a = c := by
      rintro rfl
      exact h (List.mem_cons_self a as)
    have has : c ∉ as := fun hm => h (List.mem_cons_of_mem _ hm)
    simp [splitChar, ha, ih has]

theorem splitChar_joinChar (c : Char) (L : List (List Char)) (hne : L ≠ [])
    (h : ∀ x ∈ L, c ∉ x) : splitChar c (joinChar c L) = L := by
  induction L with
  | nil => exact absurd rfl hne
  | cons x ys ih =>
    cases ys with
    | nil => exact splitChar_no_sep c x (h x (List.mem_cons_self x []))
    | cons y ys' =>
      have hx : c ∉ x := h x (List.mem_cons_self _ _)
      have hrest : ∀ z ∈ y :: ys', c ∉ z := fun z hz => h z (List.mem_cons_of_mem _ hz)
      calc splitChar c (joinChar c (x :: y :: ys'))
          = splitChar c (x ++ c :: joinChar c (y :: ys')) := rfl
        _ = x :: splitChar c (joinChar c (y :: ys')) := splitChar_append_cons c x _ hx
        _ = x :: y :: ys' := by rw [ih (by simp) hrest]

theorem not_mem_joinChar (c d : Char) (L : List (List Char)) (hcd : d ≠ c)
    (h : ∀ x ∈ L, d ∉ x) : d ∉ joinChar c L := by
  induction L with
  | nil => simp [joinChar]
  | cons x ys ih =>
    cases ys with
    | nil => exact h x (List.mem_cons_self x [])
    | cons y ys' =>
      have hx : d ∉ x := h x (List.mem_cons_self _ _)
      have hrest := ih (fun z hz => h z (List.mem_cons_of_mem _ hz))
      intro hm
      rcases List.mem_append.mp hm with hm1 | hm2
      · exact hx hm1
      · rcases List.mem_cons.mp hm2 with rfl | hm3
        · exact hcd rfl
        · exact hrest hm3

theorem mem_splitChar_not_mem (c : Char) (l : List Char) :
    ∀ x ∈ splitChar c l, c ∉ x := by
  induction l with
  | nil =>
    intro x hx
    simp [splitChar] at hx
    simp [hx]
  | cons a as ih =>
    intro x hx
    by_cases ha : a = c
    · simp [splitChar, ha] at hx
      rcases hx with rfl | hx
      · simp
      · exact ih x hx
    · obtain ⟨hd, tl, hsp⟩ : ∃ hd tl, splitChar c as = hd :: tl := by
        cases hsp : splitChar c as with
        | nil => exact absurd hsp (splitChar_ne_nil c as)
        | cons hd tl => exact ⟨hd, tl, rfl⟩
      simp [splitChar, ha, hsp] at hx
      rcases hx with rfl | hx
      · intro hm
        rcases List.mem_cons.mp hm with rfl | hm2
        · exact ha rfl
        · exact ih hd (by simp [hsp]) hm2
      · exact ih x (by simp [hsp, hx])

theorem splitPath_ne_nil (s : String) : splitPath s ≠ [] := by
  unfold splitPath
  intro h
  exact splitChar_ne_nil '/' s.data (List.map_eq_nil_iff.mp h)

theorem splitPath_no_slash (p : String) : ∀ s ∈ splitPath p, '/' ∉ s.data := by
  unfold splitPath
  intro s hs
  obtain ⟨x, hx, rfl⟩ := List.mem_map.mp hs
  exact mem_splitChar_not_mem '/' p.data x hx

theorem splitPath_joinPath (l : List String) (hne : l ≠ [])
    (h : ∀ s ∈ l, '/' ∉ s.data) : splitPath (joinPath l) = l := by
  unfold splitPath joinPath
  have hd : (String.mk (joinChar '/' (l.map String.data))).data
      = joinChar '/' (l.map String.data) := rfl
  rw [hd, splitChar_joinChar '/' (l.map String.data)
      (by simpa using hne)
      (by
        intro x hx
        obtain ⟨s, hs, rfl⟩ := List.mem_map.mp hx
        exact h s hs)]
  rw [List.map_map, show String.mk ∘ String.data = id from funext String.mk_data,
    List.map_id]

theorem breakLast_none_not_mem (c : Char) (l : List Char)
    (h : breakLast c l = none) : c ∉ l := by
  induction l with
  | nil => simp
  | cons x xs ih =>
    simp only [breakLast] at h
    cases hx : breakLast c xs with
    | some p => rw [hx] at h; simp at h
    | none =>
      rw [hx] at h
      by_cases hxc : x = c
      · simp [hxc] at h
      · intro hm
        rcases List.mem_cons.mp hm with rfl | hm2
        · exact hxc rfl
        · exact ih hx hm2

theorem breakLast_eq_some (c : Char) (l : List Char) :
    ∀ a b, breakLast c l = some (a, b) → l = a ++ c :: b ∧ c ∉ b := by
  induction l with
  | nil => intro a b h; simp [breakLast] at h
  | cons x xs ih =>
    intro a b h
    simp only [breakLast] at h
    cases hx : breakLast c xs with
    | some p =>
      rw [hx] at h
      obtain ⟨p1, p2⟩ := p
      have h2 : some (x :: p1, p2) = some (a, b) := h
      have ha : x :: p1 = a := congrArg Prod.fst (Option.some.inj h2)
      have hb : p2 = b := congrArg Prod.snd (Option.some.inj h2)
      subst ha hb
      obtain ⟨he, hmem⟩ := ih p1 p2 hx
      exact ⟨by simp [he], hmem⟩
    | none =>
      rw [hx] at h
      have h2 : (if x = c then some ([], xs) else none) = some (a, b) := h
      by_cases hxc : x = c
      · rw [if_pos hxc] at h2
        have ha : ([] : List Char) = a := congrArg Prod.fst (Option.some.inj h2)
        have hb : xs = b := congrArg Prod.snd (Option.some.inj h2)
        subst ha hb
        exact ⟨by simp [hxc], breakLast_none_not_mem c xs hx⟩
      · rw [if_neg hxc] at h2
        simp at h2

theorem breakLast_append (c : Char) (a b : List Char) (h : c ∉ b) :
    breakLast c (a ++ c :: b) = some (a, b) := by
  induction a with
  | nil =>
    simp only [List.nil_append, breakLast]
    rw [show breakLast c b = none from ?side]
    · simp
    case side =>
      cases hb : breakLast c b with
      | none => rfl
      | some p =>
        obtain ⟨he, _⟩ := breakLast_eq_some c b p.1 p.2 (by rw [hb])
        exact absurd (by rw [he]; exact List.mem_append_right _ (List.mem_cons_self c p.2)) h
  | cons x a' ih =>
    have hstep : breakLast c ((x :: a') ++ c :: b) =
        match breakLast c (a' ++ c :: b) with
        | some (p, q) => some (x :: p, q)
        | none => if x = c then some ([], a' ++ c :: b) else none := rfl
    rw [hstep, ih]

theorem splitLastHash_append (x a : String) (h : '#' ∉ a.data) :
    splitLastHash (x ++ "#" ++ a) = (x, some a) := by
  unfold splitLastHash
  have hd : (x ++ "#" ++ a).data = x.data ++ '#' :: a.data := by
    rw [String.data_append, String.data_append, List.append_assoc]
    rfl
  rw [hd, breakLast_append '#' x.data a.data h]

theorem splitLastHash_anchor_no_hash (s p a : String)
    (h : splitLastHash s = (p, some a)) : '#' ∉ a.data := by
  unfold splitLastHash at h
  cases hb : breakLast '#' s.data with
  | none => rw [hb] at h; simp at h
  | some q =>
    rw [hb] at h
    obtain ⟨_, hmem⟩ := breakLast_eq_some '#' s.data q.1 q.2 (by rw [hb])
    have : (⟨q.2⟩ : String) = a := by
      have := congrArg Prod.snd h
      simpa using this
    rw [← this]
    exact hmem

theorem splitLastHash_no_hash (s : String) (h : '#' ∉ s.data) :
    splitLastHash s = (s, none) := by
  unfold splitLastHash
  cases hb : breakLast '#' s.data with
  | none => rfl
  | some q =>
    obtain ⟨he, _⟩ := breakLast_eq_some '#' s.data q.1 q.2 (by rw [hb])
    exact absurd
      (by rw [he]; exact List.mem_append_right _ (List.mem_cons_self '#' q.2)) h

theorem stripAnchorFirst_no_hash (s : String) (h : '#' ∉ s.data) :
    stripAnchorFirst s = s := by
  unfold stripAnchorFirst
  rw [splitChar_no_sep '#' s.data h]
  rfl

theorem stripAnchorFirst_append (x a : String) (h : '#' ∉ x.data) :
    stripAnchorFirst (x ++ "#" ++ a) = x := by
  unfold stripAnchorFirst
  have hd : (x ++ "#" ++ a).data = x.data ++ '#' :: a.data := by
    rw [String.data_append, String.data_append, List.append_assoc]
    rfl
  rw [hd, splitChar_append_cons '#' x.data a.data h]
  rfl


/-- A plain path segment for `normpath` reasoning: neither empty nor a
dot-segment. -/
def plainSeg (s : String) : Prop := s ≠ "" ∧ s ≠ "." ∧ s ≠ ".."

theorem plainSeg_of_goodSeg (s : String) (h : goodSeg s) : plainSeg s :=
  ⟨h.1, h.2.1, h.2.2.1⟩

theorem plainSeg_dotdot : plainSeg ".." ∨ True := Or.inr trivial

theorem normAcc_plain (l : List String) :
    ∀ acc, (∀ s ∈ l, plainSeg s) → normAcc acc l = acc.reverse ++ l := by
  induction l with
  | nil => intro acc _; simp [normAcc]
  | cons s rest ih =>
    intro acc h
    obtain ⟨h1, h2, h3⟩ := h s (List.mem_cons_self s rest)
    rw [show normAcc acc (s :: rest)
        = if s = "" ∨ s = "." then normAcc acc rest
          else if s = ".." then
            (match acc with
            | [] => normAcc [".."] rest
            | t :: acc' =>
              if t = ".." then normAcc (s :: t :: acc') rest else normAcc acc' rest)
          else normAcc (s :: acc) rest from rfl]
    rw [if_neg (by simp [h1, h2]), if_neg h3,
      ih (s :: acc) (fun t ht => h t (List.mem_cons_of_mem _ ht))]
    simp

theorem normAcc_lead (d : List String) :
    ∀ acc rest, (∀ s ∈ d, plainSeg s) →
      normAcc acc (d ++ rest) = normAcc (d.reverse ++ acc) rest := by
  induction d with
  | nil => intro acc rest _; simp
  | cons s d' ih =>
    intro acc rest h
    obtain ⟨h1, h2, h3⟩ := h s (List.mem_cons_self s d')
    rw [List.cons_append,
      show normAcc acc (s :: (d' ++ rest))
        = if s = "" ∨ s = "." then normAcc acc (d' ++ rest)
          else if s = ".." then
            (match acc with
            | [] => normAcc [".."] (d' ++ rest)
            | t :: acc' =>
              if t = ".." then normAcc (s :: t :: acc') (d' ++ rest)
              else normAcc acc' (d' ++ rest))
          else normAcc (s :: acc) (d' ++ rest) from rfl]
    rw [if_neg (by simp [h1, h2]), if_neg h3,
      ih (s :: acc) rest (fun t ht => h t (List.mem_cons_of_mem _ ht))]
    simp

theorem normAcc_pop (k : Nat) :
    ∀ acc rest, k ≤ acc.length → (∀ s ∈ acc, s ≠ "..") →
      normAcc acc (List.replicate k ".." ++ rest) = normAcc (acc.drop k) rest := by
  induction k with
  | zero => intro acc rest _ _; simp
  | succ n ih =>
    intro acc rest hk hacc
    cases acc with
    | nil => simp at hk
    | cons t acc' =>
      have ht : t ≠ ".." := hacc t (List.mem_cons_self t acc')
      rw [List.replicate_succ, List.cons_append,
        show normAcc (t :: acc') (".." :: (List.replicate n ".." ++ rest))
          = if (".." : String) = "" ∨ (".." : String) = "." then
              normAcc (t :: acc') (List.replicate n ".." ++ rest)
            else if (".." : String) = ".." then
              (if t = ".." then normAcc (".." :: t :: acc') (List.replicate n ".." ++ rest)
               else normAcc acc' (List.replicate n ".." ++ rest))
            else normAcc (".." :: t :: acc') (List.replicate n ".." ++ rest) from rfl]
      rw [if_neg (by simp), if_pos rfl, if_neg ht,
        ih acc' rest (Nat.le_of_succ_le_succ hk)
          (fun s hs => hacc s (List.mem_cons_of_mem _ hs))]
      simp

theorem relSegs_decomp (t : List String) :
    ∀ s, ∃ p t0 s0, t = p ++ t0 ∧ s = p ++ s0 ∧
      relSegs t s = s0.map (fun _ => "..") ++ t0 := by
  induction t with
  | nil =>
    intro s
    cases s with
    | nil => exact ⟨[], [], [], rfl, rfl, rfl⟩
    | cons b s' => exact ⟨[], [], b :: s', rfl, rfl, by simp [relSegs]⟩
  | cons a t' ih =>
    intro s
    cases s with
    | nil => exact ⟨[], a :: t', [], rfl, rfl, rfl⟩
    | cons b s' =>
      by_cases hab : a = b
      · obtain ⟨p, t0, s0, h1, h2, h3⟩ := ih s'
        subst hab
        exact ⟨a :: p, t0, s0, by simp [h1], by simp [h2],
          by rw [show relSegs (a :: t') (a :: s') = relSegs t' s' from by
            simp [relSegs]]; exact h3⟩
      · exact ⟨[], a :: t', b :: s', rfl, rfl, by simp [relSegs, hab]⟩

theorem relSegs_eq_nil (t s : List String) (h : relSegs t s = []) : t = s := by
  obtain ⟨p, t0, s0, h1, h2, h3⟩ := relSegs_decomp t s
  rw [h3] at h
  have h4 : s0.map (fun _ => "..") = [] := (List.append_eq_nil.mp h).1
  have h5 : t0 = [] := (List.append_eq_nil.mp h).2
  have h6 : s0 = [] := List.map_eq_nil_iff.mp h4
  rw [h1, h2, h5, h6]

theorem relSegs_mem (t s : List String) :
    ∀ x ∈ relSegs t s, x = ".." ∨ x ∈ t := by
  obtain ⟨p, t0, s0, h1, h2, h3⟩ := relSegs_decomp t s
  intro x hx
  rw [h3] at hx
  rcases List.mem_append.mp hx with hx1 | hx2
  · obtain ⟨y, _, hy2⟩ := List.mem_map.mp hx1
    exact Or.inl hy2.symm
  · exact Or.inr (by rw [h1]; exact List.mem_append_right p hx2)

/-- The central path round trip: resolving the relative path from a
start directory back against that directory recovers the target, for
dot-free paths.  This is
`normpath(join(start, relpath(target, start))) == target`. -/
theorem norm_resolve (d b : List String)
    (hd : ∀ s ∈ d, plainSeg s) (hb : ∀ s ∈ b, plainSeg s) :
    normSegs (d ++ relSegs b d) = b := by
  obtain ⟨p, t0, s0, hbd, hdd, hrel⟩ := relSegs_decomp b d
  rw [hrel, hdd]
  unfold normSegs
  rw [show (p ++ s0) ++ (s0.map (fun _ => "..") ++ t0)
      = (p ++ s0) ++ s0.map (fun _ => "..") ++ t0 from by simp,
    show ((p ++ s0) ++ s0.map (fun _ => "..")) ++ t0
      = (p ++ s0) ++ (s0.map (fun _ => "..") ++ t0) from by simp]
  rw [normAcc_lead (p ++ s0) [] (s0.map (fun _ => "..") ++ t0)
    (by rw [← hdd]; exact hd)]
  have hrepl : s0.map (fun _ => (".." : String)) = List.replicate s0.length ".." := by
    induction s0 with
    | nil => rfl
    | cons x xs ihx => simp [List.replicate_succ, ihx]
  rw [hrepl]
  have hs0 : ∀ s ∈ s0, plainSeg s := by
    intro s hs
    exact hd s (by rw [hdd]; exact List.mem_append_right p hs)
  have hp : ∀ s ∈ p, plainSeg s := by
    intro s hs
    exact hd s (by rw [hdd]; exact List.mem_append_left s0 hs)
  rw [normAcc_pop s0.length ((p ++ s0).reverse ++ []) t0
    (by simp)
    (by
      intro s hs
      simp only [List.append_nil, List.mem_reverse, List.mem_append] at hs
      rcases hs with hs1 | hs2
      · exact (hp s hs1).2.2
      · exact (hs0 s hs2).2.2)]
  have hdrop : List.drop s0.length ((p ++ s0).reverse ++ []) = p.reverse := by
    rw [List.append_nil, List.reverse_append]
    exact List.drop_left' (by simp)
  rw [hdrop]
  rw [normAcc_plain t0 p.reverse (by
    intro s hs
    exact hb s (by rw [hbd]; exact List.mem_append_right p hs))]
  rw [List.reverse_reverse, ← hbd]

theorem firstMinBy_mem {α : Type} (f : α → Nat) (l : List α) (x : α)
    (h : firstMinBy f l = some x) : x ∈ l := by
  induction l generalizing x with
  | nil => simp [firstMinBy] at h
  | cons a xs ih =>
    simp only [firstMinBy] at h
    cases hx : firstMinBy f xs with
    | none =>
      rw [hx] at h
      exact List.mem_cons.mpr (Or.inl (Option.some.inj h).symm)
    | some y =>
      rw [hx] at h
      have h2 : (if f y < f a then some y else some a) = some x := h
      by_cases hc : f y < f a
      · rw [if_pos hc] at h2
        exact List.mem_cons_of_mem a ((Option.some.inj h2) ▸ ih y hx)
      · rw [if_neg hc] at h2
        exact List.mem_cons.mpr (Or.inl (Option.some.inj h2).symm)

theorem firstMinBy_none {α : Type} (f : α → Nat) (l : List α) :
    firstMinBy f l = none ↔ l = [] := by
  cases l with
  | nil => simp [firstMinBy]
  | cons a xs =>
    simp only [firstMinBy]
    cases hx : firstMinBy f xs with
    | none => simp
    | some y => by_cases hc : f y < f a <;> simp [hc]

/-- The element chosen by `firstMinBy` is the first element attaining
the minimal score: everything before it scores strictly more, and
everything after it scores at least as much. -/
theorem firstMinBy_spec {α : Type} (f : α → Nat) (l : List α) (x : α)
    (h : firstMinBy f l = some x) :
    ∃ pre post, l = pre ++ x :: post ∧ (∀ y ∈ pre, f x < f y) ∧
      (∀ y ∈ post, f x ≤ f y) := by
  induction l generalizing x with
  | nil => simp [firstMinBy] at h
  | cons a xs ih =>
    simp only [firstMinBy] at h
    cases hx : firstMinBy f xs with
    | none =>
      rw [hx] at h
      have hxs : xs = [] := (firstMinBy_none f xs).mp hx
      have hax : a = x := Option.some.inj h
      exact ⟨[], [], by rw [hxs, hax]; rfl, by simp, by simp⟩
    | some y =>
      rw [hx] at h
      have h2 : (if f y < f a then some y else some a) = some x := h
      by_cases hc : f y < f a
      · rw [if_pos hc] at h2
        have hyx : y = x := Option.some.inj h2
        subst hyx
        obtain ⟨pre, post, h1, h2, h3⟩ := ih y hx
        exact ⟨a :: pre, post, by rw [h1]; rfl,
          by
            intro z hz
            rcases List.mem_cons.mp hz with rfl | hz2
            · exact hc
            · exact h2 z hz2,
          h3⟩
      · rw [if_neg hc] at h2
        have hax : a = x := Option.some.inj h2
        subst hax
        obtain ⟨pre, post, h1, h2, h3⟩ := ih y hx
        refine ⟨[], xs, rfl, by simp, ?_⟩
        intro z hz
        have hay : f a ≤ f y := Nat.le_of_not_lt hc
        rw [h1] at hz
        rcases List.mem_append.mp hz with hz1 | hz2
        · exact Nat.le_of_lt (Nat.lt_of_le_of_lt hay (h2 z hz1))
        · rcases List.mem_cons.mp hz2 with rfl | hz3
          · exact hay
          · exact Nat.le_trans hay (h3 z hz3)

theorem scanOf_subset (files : List String) (tf : String) :
    ∀ x ∈ (LC.scanOf files tf).1, x ∈ files := by
  intro x hx
  simp only [LC.scanOf] at hx
  split at hx
  · exact List.mem_of_mem_filter hx
  · exact List.mem_of_mem_filter hx

theorem isEmpty_false_of_ne_nil {α : Type} (l : List α) (h : l ≠ []) :
    l.isEmpty = false := by
  cases l with
  | nil => exact absurd rfl h
  | cons a as => rfl

/-- The relative-path string built by the heuristic branch (either `"."`
or the joined relative segments) contains no `#`, when the index paths
are clean. -/
theorem relOf_no_hash (files : List String) (source best : String)
    (hfiles : ∀ f ∈ files, CleanPath f) (hbm : best ∈ files) :
    '#' ∉ (if (relSegs (splitPath best) (dirOf (splitPath source))).isEmpty
        then "."
        else joinPath (relSegs (splitPath best) (dirOf (splitPath source)))).data := by
  by_cases he : (relSegs (splitPath best) (dirOf (splitPath source))).isEmpty = true
  · rw [if_pos he]
    decide
  · rw [if_neg he]
    unfold joinPath
    have hh : ((String.mk (joinChar '/'
        ((relSegs (splitPath best) (dirOf (splitPath source))).map String.data))) :
        String).data = joinChar '/'
        ((relSegs (splitPath best) (dirOf (splitPath source))).map String.data) := rfl
    rw [hh]
    apply not_mem_joinChar
    · intro hq
      simp at hq
    · intro x hx
      obtain ⟨s, hs, rfl⟩ := List.mem_map.mp hx
      rcases relSegs_mem _ _ s hs with rfl | hs2
      · intro hm
        simp at hm
      · exact ((hfiles best hbm) s hs2).2.2.2

/-- Core resolution soundness of `find_best_match`'s heuristic branch:
whatever suggestion it returns, stripping the re-appended anchor and
resolving it against the source document's directory (as `check_links`
does) lands exactly on the candidate file, which is a member of the
index.  Hypotheses: all indexed paths and the source path are clean
(their segments are non-empty, not dot-segments, and `#`-free: the shape
`os.walk` produces), and no indexed file path coincides with the source
document's directory path (true on a real filesystem, where a path
cannot be both a file and a directory). -/
theorem heuristic_resolves (files : List String) (link source : String)
    (r : FBMResult)
    (hfiles : ∀ f ∈ files, CleanPath f) (hsrc : CleanPath source)
    (hnd : ∀ f ∈ files, splitPath f ≠ dirOf (splitPath source))
    (h : LC.heuristicSuggestion files link source = some r) :
    ∃ best ∈ files,
      LC.resolveLink source (stripAnchorFirst r.suggestion) = splitPath best := by
  simp only [LC.heuristicSuggestion] at h
  cases hmin : firstMinBy (LC.distance source)
      (LC.scanOf files (splitLastHash ((splitPath link).getLastD "")).1).1 with
  | none => rw [hmin] at h; simp at h
  | some best =>
    rw [hmin] at h
    have hbestmem : best ∈ files :=
      scanOf_subset files _ best (firstMinBy_mem _ _ _ hmin)
    have hbgood : ∀ s ∈ splitPath best, goodSeg s := hfiles best hbestmem
    have hrelne : relSegs (splitPath best) (dirOf (splitPath source)) ≠ [] := by
      intro hnil
      exact hnd best hbestmem (relSegs_eq_nil _ _ hnil)
    have hisEmpty : (relSegs (splitPath best) (dirOf (splitPath source))).isEmpty
        = false := isEmpty_false_of_ne_nil _ hrelne
    have hslash : ∀ s ∈ relSegs (splitPath best) (dirOf (splitPath source)),
        '/' ∉ s.data := by
      intro s hs
      rcases relSegs_mem _ _ s hs with rfl | hs2
      · intro hm
        simp at hm
      · exact splitPath_no_slash best s hs2
    have hhash : '#' ∉ (joinPath (relSegs (splitPath best)
        (dirOf (splitPath source)))).data := by
      unfold joinPath
      have hh : ((String.mk (joinChar '/'
          ((relSegs (splitPath best) (dirOf (splitPath source))).map String.data))) :
          String).data = joinChar '/'
          ((relSegs (splitPath best) (dirOf (splitPath source))).map String.data) := rfl
      rw [hh]
      apply not_mem_joinChar
      · intro hq
        simp at hq
      · intro x hx
        obtain ⟨s, hs, rfl⟩ := List.mem_map.mp hx
        rcases relSegs_mem _ _ s hs with rfl | hs2
        · intro hm
          simp at hm
        · exact (hbgood s hs2).2.2.2
    have hsplitjoin : splitPath (joinPath (relSegs (splitPath best)
        (dirOf (splitPath source)))) = relSegs (splitPath best) (dirOf (splitPath source)) :=
      splitPath_joinPath _ hrelne hslash
    have hdplain : ∀ s ∈ dirOf (splitPath source), plainSeg s := by
      intro s hs
      exact plainSeg_of_goodSeg s (hsrc s (List.dropLast_subset _ hs))
    have hbplain : ∀ s ∈ splitPath best, plainSeg s :=
      fun s hs => plainSeg_of_goodSeg s (hbgood s hs)
    have hresolve : LC.resolveLink source (joinPath (relSegs (splitPath best)
        (dirOf (splitPath source)))) = splitPath best := by
      unfold LC.resolveLink
      rw [hsplitjoin]
      exact norm_resolve _ _ hdplain hbplain
    cases hpa : (splitLastHash ((splitPath link).getLastD "")).2 with
    | none =>
      rw [hpa] at h
      have h2 : some (⟨if (relSegs (splitPath best) (dirOf (splitPath source))).isEmpty
          then "." else joinPath (relSegs (splitPath best) (dirOf (splitPath source))),
          (LC.scanOf files (splitLastHash ((splitPath link).getLastD "")).1).2⟩ : FBMResult)
          = some r := h
      rw [hisEmpty] at h2
      have hr : (⟨joinPath (relSegs (splitPath best) (dirOf (splitPath source))),
          (LC.scanOf files (splitLastHash ((splitPath link).getLastD "")).1).2⟩ : FBMResult)
          = r := Option.some.inj (by simpa using h2)
      refine ⟨best, hbestmem, ?_⟩
      rw [← hr]
      rw [stripAnchorFirst_no_hash _ hhash]
      exact hresolve
    | some a =>
      rw [hpa] at h
      have h2 : (if a = "" then
            some (⟨if (relSegs (splitPath best) (dirOf (splitPath source))).isEmpty
              then "."
              else joinPath (relSegs (splitPath best) (dirOf (splitPath source))),
              (LC.scanOf files (splitLastHash ((splitPath link).getLastD "")).1).2⟩
              : FBMResult)
          else some ⟨(if (relSegs (splitPath best) (dirOf (splitPath source))).isEmpty
              then "."
              else joinPath (relSegs (splitPath best) (dirOf (splitPath source))))
              ++ "#" ++ a,
              (LC.scanOf files (splitLastHash ((splitPath link).getLastD "")).1).2⟩)
          = some r := h
      by_cases hae : a = ""
      · rw [if_pos hae, hisEmpty] at h2
        have hr : (⟨joinPath (relSegs (splitPath best) (dirOf (splitPath source))),
            (LC.scanOf files (splitLastHash ((splitPath link).getLastD "")).1).2⟩
            : FBMResult) = r := Option.some.inj (by simpa using h2)
        refine ⟨best, hbestmem, ?_⟩
        rw [← hr]
        rw [stripAnchorFirst_no_hash _ hhash]
        exact hresolve
      · rw [if_neg hae, hisEmpty] at h2
        have hr : (⟨joinPath (relSegs (splitPath best) (dirOf (splitPath source)))
            ++ "#" ++ a,
            (LC.scanOf files (splitLastHash ((splitPath link).getLastD "")).1).2⟩
            : FBMResult) = r := Option.some.inj (by simpa using h2)
        refine ⟨best, hbestmem, ?_⟩
        rw [← hr]
        rw [stripAnchorFirst_append _ _ hhash]
        exact hresolve

theorem fixStep_fixed_mono (st : List Ref × List BrokenInfo × List BrokenInfo)
    (l : BrokenInfo) : ∀ y ∈ st.2.1, y ∈ (LC.fixStep st l).2.1 := by
  intro y hy
  cases hl : l.suggested_fix with
  | none => simp only [LC.fixStep, hl]; exact hy
  | some s =>
    simp only [LC.fixStep, hl]
    split
    · exact List.mem_append_left _ hy
    · exact hy

theorem fixStep_manual_mono (st : List Ref × List BrokenInfo × List BrokenInfo)
    (l : BrokenInfo) : ∀ y ∈ st.2.2, y ∈ (LC.fixStep st l).2.2 := by
  intro y hy
  cases hl : l.suggested_fix with
  | none => simp only [LC.fixStep, hl]; exact List.mem_append_left _ hy
  | some s =>
    simp only [LC.fixStep, hl]
    split
    · exact hy
    · exact List.mem_append_left _ hy

theorem foldl_fixStep_fixed_mono (ls : List BrokenInfo) :
    ∀ st, ∀ y ∈ st.2.1, y ∈ (ls.foldl LC.fixStep st).2.1 := by
  induction ls with
  | nil => intro st y hy; exact hy
  | cons l rest ih =>
    intro st y hy
    rw [List.foldl_cons]
    exact ih (LC.fixStep st l) y (fixStep_fixed_mono st l y hy)

theorem foldl_fixStep_manual_mono (ls : List BrokenInfo) :
    ∀ st, ∀ y ∈ st.2.2, y ∈ (ls.foldl LC.fixStep st).2.2 := by
  induction ls with
  | nil => intro st y hy; exact hy
  | cons l rest ih =>
    intro st y hy
    rw [List.foldl_cons]
    exact ih (LC.fixStep st l) y (fixStep_manual_mono st l y hy)

theorem fixStep_length (st : List Ref × List BrokenInfo × List BrokenInfo)
    (l : BrokenInfo) :
    (LC.fixStep st l).2.1.length + (LC.fixStep st l).2.2.length
      = st.2.1.length + st.2.2.length + 1 := by
  cases hl : l.suggested_fix with
  | none => simp only [LC.fixStep, hl]; simp; omega
  | some s =>
    simp only [LC.fixStep, hl]
    split
    · simp; omega
    · simp; omega

theorem foldl_fixStep_length (ls : List BrokenInfo) :
    ∀ st, (ls.foldl LC.fixStep st).2.1.length + (ls.foldl LC.fixStep st).2.2.length
      = st.2.1.length + st.2.2.length + ls.length := by
  induction ls with
  | nil => intro st; simp
  | cons l rest ih =>
    intro st
    rw [List.foldl_cons, ih (LC.fixStep st l), fixStep_length st l]
    simp
    omega

theorem insertLenDesc_length (x : BrokenInfo) (l : List BrokenInfo) :
    (LC.insertLenDesc x l).length = l.length + 1 := by
  induction l with
  | nil => rfl
  | cons y ys ih =>
    simp only [LC.insertLenDesc]
    split
    · simp
    · simp [ih]

theorem sortByLinkLenDesc_length (l : List BrokenInfo) :
    (LC.sortByLinkLenDesc l).length = l.length := by
  unfold LC.sortByLinkLenDesc
  induction l with
  | nil => rfl
  | cons x xs ih => simp [List.foldr_cons, insertLenDesc_length, ih]

theorem foldl_fixStep_fixed_nil (ls : List BrokenInfo) :
    ∀ st, (ls.foldl LC.fixStep st).2.1 = [] →
      st.2.1 = [] ∧ (ls.foldl LC.fixStep st).1 = st.1 := by
  induction ls with
  | nil => intro st h; exact ⟨h, rfl⟩
  | cons l rest ih =>
    intro st h
    rw [List.foldl_cons] at h
    obtain ⟨h1, h2⟩ := ih (LC.fixStep st l) h
    rw [List.foldl_cons]
    cases hl : l.suggested_fix with
    | none =>
      refine ⟨?_, ?_⟩
      · have : (LC.fixStep st l).2.1 = st.2.1 := by simp only [LC.fixStep, hl]
        rw [← this]; exact h1
      · rw [h2]
        simp only [LC.fixStep, hl]
    | some s =>
      by_cases hp : LC.patternPresent st.1 l.text l.link = true
      · exfalso
        have : (LC.fixStep st l).2.1 = st.2.1 ++ [l] := by
          simp only [LC.fixStep, hl]
          rw [if_pos hp]
        rw [this] at h1
        exact List.cons_ne_nil l [] (List.append_eq_nil.mp h1).2
      · have hval : (LC.fixStep st l) = (st.1, st.2.1, st.2.2 ++ [l]) := by
          simp only [LC.fixStep, hl]
          rw [if_neg hp]
        refine ⟨?_, ?_⟩
        · rw [hval] at h1; exact h1
        · rw [h2, hval]

/-!
## Claim theorems
-/

/-- C1 counterexample: the claim fails for override-sourced suggestions.
With the override table mapping `old.md` to `nowhere.md` and an index
containing only `a.md`, `find_best_match` returns the Fixed suggestion
`nowhere.md` from the override table even though no path of the index
matches it when resolved from the source document — a Fixed result whose
suggested target does not exist in the DocumentIndex. -/
theorem C1_counterexample :
    LC.find_best_match [("old.md", "nowhere.md")] ["a.md"] "old.md" "s.md"
        = some ⟨"nowhere.md", MatchSource.override⟩ ∧
    (∀ f ∈ ["a.md"],
      LC.resolveLink "s.md" (stripAnchorFirst "nowhere.md") ≠ splitPath f) := by
  decide

/-- C1 (amended): for every Broken reference whose Fixed suggestion
comes from a filename heuristic (exact or case-insensitive scan, i.e.
not from the override table), the suggested target — anchor stripped and
resolved against the source document's directory — is a path that exists
in the DocumentIndex at resolution time.  Override-sourced suggestions
are returned verbatim with no existence check. -/
theorem C1_heuristic_fixed_target_exists (m : List (String × String))
    (files : List String) (link source : String) (r : FBMResult)
    (hfiles : ∀ f ∈ files, CleanPath f) (hsrc : CleanPath source)
    (hnd : ∀ f ∈ files, splitPath f ≠ dirOf (splitPath source))
    (h : LC.find_best_match m files link source = some r)
    (hor : r.origin ≠ MatchSource.override) :
    ∃ best ∈ files,
      LC.resolveLink source (stripAnchorFirst r.suggestion) = splitPath best := by
  unfold LC.find_best_match at h
  cases hov : lookupOv m link with
  | some v =>
    rw [hov] at h
    have h2 : some (⟨v, MatchSource.override⟩ : FBMResult) = some r := h
    exact absurd (congrArg FBMResult.origin (Option.some.inj h2)).symm hor
  | none =>
    rw [hov] at h
    exact heuristic_resolves files link source r hfiles hsrc hnd h

/-- Witness for C1 (amended) at the spec's own worked scenario:
`docs/guide.md` references `setup.md`, which only exists as
`docs/install/setup.md`; the suggestion `install/setup.md` resolves to
an index member. -/
theorem C1_witness :
    ∃ best ∈ ["docs/install/setup.md", "docs/guide.md"],
      LC.resolveLink "docs/guide.md"
        (stripAnchorFirst
          (FBMResult.suggestion ⟨"install/setup.md", MatchSource.exactScan⟩))
        = splitPath best :=
  C1_heuristic_fixed_target_exists [] ["docs/install/setup.md", "docs/guide.md"]
    "setup.md" "docs/guide.md" ⟨"install/setup.md", MatchSource.exactScan⟩
    (by decide) (by decide) (by decide) (by decide) (by decide)

/-- C2: if the override table has an entry for the raw target string,
`find_best_match` returns exactly that entry as the Fixed suggestion
with source Override, in both `link_campaign` and
`simple_link_campaign`; the result is the same for any two index
contents, so no filename heuristic is consulted even when a heuristic
candidate exists. -/
theorem C2_override_bypasses_heuristics (m : List (String × String))
    (files1 files2 : List String) (link source : String) (v : String)
    (h : lookupOv m link = some v) :
    LC.find_best_match m files1 link source = some ⟨v, MatchSource.override⟩ ∧
    LC.find_best_match m files2 link source = some ⟨v, MatchSource.override⟩ ∧
    SimpleLC.find_best_match m files1 link source
        = some ⟨v, MatchSource.override⟩ := by
  unfold LC.find_best_match SimpleLC.find_best_match
  rw [h]
  exact ⟨rfl, rfl, rfl⟩

/-- Witness for C2: an override entry wins over an exact-filename
candidate present in the index. -/
theorem C2_witness :
    LC.find_best_match [("missing.md", "fixed.md")] ["dir/missing.md"]
        "missing.md" "s.md" = some ⟨"fixed.md", MatchSource.override⟩ ∧
    LC.find_best_match [("missing.md", "fixed.md")] [] "missing.md" "s.md"
        = some ⟨"fixed.md", MatchSource.override⟩ ∧
    SimpleLC.find_best_match [("missing.md", "fixed.md")] ["dir/missing.md"]
        "missing.md" "s.md" = some ⟨"fixed.md", MatchSource.override⟩ :=
  C2_override_bypasses_heuristics [("missing.md", "fixed.md")]
    ["dir/missing.md"] [] "missing.md" "s.md" "fixed.md" (by decide)

/-- C3 counterexample: an apply run over a corpus whose only broken
reference is resolvable (the override table suggests `nowhere.md` for
`bad.md`) fixes that reference, yet re-analysing the rewritten content
reports the rewritten reference Broken again: fixes applied from an
override entry whose target does not exist are not idempotent. -/
theorem C3_counterexample :
    LC.checkFile [("bad.md", "nowhere.md")] ["docs/a.md"] "docs/a.md"
        [⟨"t", "bad.md"⟩]
        = [⟨"docs/a.md", "t", "bad.md", some "nowhere.md"⟩] ∧
    (LC.fixFileLinks [⟨"t", "bad.md"⟩]
        [⟨"docs/a.md", "t", "bad.md", some "nowhere.md"⟩]).fixed
        = [⟨"docs/a.md", "t", "bad.md", some "nowhere.md"⟩] ∧
    (LC.fixFileLinks [⟨"t", "bad.md"⟩]
        [⟨"docs/a.md", "t", "bad.md", some "nowhere.md"⟩]).newContent
        = [⟨"t", "nowhere.md"⟩] ∧
    LC.checkFile [("bad.md", "nowhere.md")] ["docs/a.md"] "docs/a.md"
        [⟨"t", "nowhere.md"⟩]
        = [⟨"docs/a.md", "t", "nowhere.md", none⟩] := by
  decide

/-- C3 (amended): idempotence holds for every reference fixed through
the filename heuristics: re-analysing a reference rewritten to a
heuristic suggestion reports it not Broken (the rewrite does not change
the index, and the suggestion resolves to an index member).
Override-sourced fixes are applied unchecked and may stay broken. -/
theorem C3_heuristic_fixes_idempotent (m : List (String × String))
    (files : List String) (link source text : String) (r : FBMResult)
    (hfiles : ∀ f ∈ files, CleanPath f) (hsrc : CleanPath source)
    (hnd : ∀ f ∈ files, splitPath f ≠ dirOf (splitPath source))
    (h : LC.find_best_match m files link source = some r)
    (hor : r.origin ≠ MatchSource.override) :
    LC.linkStatus m files source ⟨text, r.suggestion⟩ = none := by
  have hcore : ∃ best ∈ files,
      LC.resolveLink source (stripAnchorFirst r.suggestion) = splitPath best := by
    unfold LC.find_best_match at h
    cases hov : lookupOv m link with
    | some v =>
      rw [hov] at h
      have h2 : some (⟨v, MatchSource.override⟩ : FBMResult) = some r := h
      exact absurd (congrArg FBMResult.origin (Option.some.inj h2)).symm hor
    | none =>
      rw [hov] at h
      exact heuristic_resolves files link source r hfiles hsrc hnd h
  obtain ⟨best, hbm, hres⟩ := hcore
  simp only [LC.linkStatus]
  by_cases hskip : LC.skipLC r.suggestion = true
  · rw [if_pos hskip]
  · rw [if_neg hskip]
    by_cases hempty : stripAnchorFirst r.suggestion = ""
    · rw [if_pos hempty]
    · rw [if_neg hempty, if_pos ?pos]
      case pos =>
        exact List.any_eq_true.mpr ⟨best, hbm, decide_eq_true hres.symm⟩

/-- Witness for C3 (amended): re-checking the fixed reference of the
spec's worked scenario finds it valid. -/
theorem C3_witness :
    LC.linkStatus [] ["docs/install/setup.md", "docs/guide.md"] "docs/guide.md"
        ⟨"setup", FBMResult.suggestion ⟨"install/setup.md", MatchSource.exactScan⟩⟩
        = none :=
  C3_heuristic_fixes_idempotent [] ["docs/install/setup.md", "docs/guide.md"]
    "setup.md" "docs/guide.md" "setup" ⟨"install/setup.md", MatchSource.exactScan⟩
    (by decide) (by decide) (by decide) (by decide) (by decide)

/-- C4 counterexample: the override lookup is keyed by the full raw
target string including the anchor.  With raw target `old.md#install`,
an override entry keyed by the path portion `old.md` alone, and no
`old.md` anywhere in the index, the resolver returns no suggestion at
all — not `new.md#install` as the claim requires. -/
theorem C4_counterexample :
    lookupOv [("old.md", "new.md")] "old.md" = some "new.md" ∧
    (∀ f ∈ ["a/keep.md"], basenameOf f ≠ "old.md") ∧
    LC.find_best_match [("old.md", "new.md")] ["a/keep.md"] "old.md#install"
        "docs/s.md" = none := by
  decide

/-- C4 (amended): the anchor of a broken raw target is preserved only
through the heuristic path, and only when non-empty: whenever
`find_best_match` produces a non-override suggestion for a target
carrying a non-empty anchor `a`, the suggestion carries the same anchor
`a` after its last `#`; an empty anchor (target ending in `#`) fails
Python's `if anchor:` truthiness check and is dropped, so the suggestion
carries no anchor at all.  An override entry applies only when its key
equals the full raw target (anchor included), in which case its value is
returned verbatim; an entry keyed by the path portion alone never
applies to an anchored target. -/
theorem C4_anchor_preserved_heuristic (m : List (String × String))
    (files : List String) (link source : String) (r : FBMResult) (a : String)
    (hfiles : ∀ f ∈ files, CleanPath f)
    (h : LC.find_best_match m files link source = some r)
    (hor : r.origin ≠ MatchSource.override)
    (ha : (splitLastHash ((splitPath link).getLastD "")).2 = some a) :
    (a ≠ "" → (splitLastHash r.suggestion).2 = some a) ∧
    (a = "" → (splitLastHash r.suggestion).2 = none) := by
  unfold LC.find_best_match at h
  cases hov : lookupOv m link with
  | some v =>
    rw [hov] at h
    have h2 : some (⟨v, MatchSource.override⟩ : FBMResult) = some r := h
    exact absurd (congrArg FBMResult.origin (Option.some.inj h2)).symm hor
  | none =>
    rw [hov] at h
    simp only [LC.heuristicSuggestion] at h
    cases hmin : firstMinBy (LC.distance source)
        (LC.scanOf files (splitLastHash ((splitPath link).getLastD "")).1).1 with
    | none => rw [hmin] at h; simp at h
    | some best =>
      rw [hmin, ha] at h
      have hbm : best ∈ files :=
        scanOf_subset files _ best (firstMinBy_mem _ _ _ hmin)
      have hhash0 := relOf_no_hash files source best hfiles hbm
      have h2 : (if a = "" then
            some (⟨if (relSegs (splitPath best) (dirOf (splitPath source))).isEmpty
              then "."
              else joinPath (relSegs (splitPath best) (dirOf (splitPath source))),
              (LC.scanOf files (splitLastHash ((splitPath link).getLastD "")).1).2⟩
              : FBMResult)
          else some ⟨(if (relSegs (splitPath best) (dirOf (splitPath source))).isEmpty
              then "."
              else joinPath (relSegs (splitPath best) (dirOf (splitPath source))))
              ++ "#" ++ a,
              (LC.scanOf files (splitLastHash ((splitPath link).getLastD "")).1).2⟩)
          = some r := h
      have hahash : '#' ∉ a.data :=
        splitLastHash_anchor_no_hash ((splitPath link).getLastD "")
          (splitLastHash ((splitPath link).getLastD "")).1 a (by rw [← ha])
      constructor
      · intro hne
        rw [if_neg hne] at h2
        rw [← Option.some.inj h2]
        rw [splitLastHash_append _ a hahash]
      · intro hae
        rw [if_pos hae] at h2
        rw [← Option.some.inj h2]
        rw [splitLastHash_no_hash _ hhash0]

/-- Witness for C4 (amended): the heuristic suggestion for
`setup.md#install` keeps the `install` anchor. -/
theorem C4_witness :
    (splitLastHash (FBMResult.suggestion
        ⟨"install/setup.md#install", MatchSource.exactScan⟩)).2 = some "install" :=
  (C4_anchor_preserved_heuristic [] ["docs/install/setup.md"]
    "setup.md#install" "docs/guide.md"
    ⟨"install/setup.md#install", MatchSource.exactScan⟩ "install"
    (by decide) (by decide) (by decide) (by decide)).1 (by decide)

/-- C5 counterexample: `link_campaign.check_links` skips only targets
starting with `http://`, `https://`, `#`, or `/`.  A `mailto:` reference
— External per the claim and the spec — is treated as an internal path,
looked up, and reported Broken. -/
theorem C5_counterexample :
    startsWithS "mailto:x@y.z" "mailto:" = true ∧
    LC.checkFile [] ["a.md"] "s.md" [⟨"t", "mailto:x@y.z"⟩]
        = [⟨"s.md", "t", "mailto:x@y.z", none⟩] := by
  decide

/-- C5 (amended): references matching `link_campaign`'s skip condition
(`http://`, `https://`, `#`, `/` prefixes) and anchor-only references
(empty path portion) are never resolved and never reported Broken, for
every index; `simple_link_campaign` additionally skips `mailto:`
references.  In `link_campaign`, `mailto:` targets are not skipped and
can be reported Broken. -/
theorem C5_skip_no_resolution (m : List (String × String)) (files : List String)
    (source : String) (r : Ref) :
    (LC.skipLC r.link = true → LC.linkStatus m files source r = none) ∧
    (stripAnchorFirst r.link = "" → LC.linkStatus m files source r = none) ∧
    (SimpleLC.skipSimple r.link = true →
      SimpleLC.linkStatus files source r = none) := by
  refine ⟨?_, ?_, ?_⟩
  · intro h
    simp only [LC.linkStatus]
    rw [if_pos h]
  · intro h
    simp only [LC.linkStatus]
    by_cases hskip : LC.skipLC r.link = true
    · rw [if_pos hskip]
    · rw [if_neg hskip, if_pos h]
  · intro h
    simp only [SimpleLC.linkStatus]
    rw [if_pos h]

/-- Witness for C5 (amended): an anchor-prefixed reference is never
reported by `link_campaign`, and a `mailto:` reference is skipped by
`simple_link_campaign`. -/
theorem C5_witness :
    LC.linkStatus [] ["a.md"] "s.md" ⟨"t", "#frag"⟩ = none ∧
    SimpleLC.linkStatus ["a.md"] "s.md" ⟨"t", "mailto:x@y.z"⟩ = none :=
  ⟨(C5_skip_no_resolution [] ["a.md"] "s.md" ⟨"t", "#frag"⟩).1 (by decide),
    (C5_skip_no_resolution [] ["a.md"] "s.md" ⟨"t", "mailto:x@y.z"⟩).2.2 (by decide)⟩

/-- C6 counterexample: `link_campaign`'s first candidate scan lowercases
both sides (`file.lower().endswith('/' + target.lower())`), so it is not
case-sensitive: for target `setup.md` it selects the case-differing
`a/SETUP.md` in the first scan and never reaches the root-level file
`setup.md` that matches the basename exactly and case-sensitively. -/
theorem C6_counterexample :
    ["a/SETUP.md", "setup.md"].filter (fun f => basenameOf f = "setup.md")
        = ["setup.md"] ∧
    LC.scanOf ["a/SETUP.md", "setup.md"] "setup.md"
        = (["a/SETUP.md"], MatchSource.exactScan) ∧
    LC.find_best_match [] ["a/SETUP.md", "setup.md"] "setup.md" "docs/s.md"
        = some ⟨"../a/SETUP.md", MatchSource.exactScan⟩ := by
  decide

/-- C6 (amended): `simple_link_campaign` scans as the claim states — a
case-sensitive exact basename scan first, and the case-insensitive scan
only when the first is empty, suggestion source tagged accordingly.  In
`link_campaign` the fallback also fires only when the first scan is
empty, but the first scan is itself case-insensitive (a lowercased
`/`-suffix match). -/
theorem C6_scan_order (files : List String) (fn : String) :
    ((∃ f ∈ files, basenameOf f = fn) →
      (SimpleLC.scanOf files fn).2 = MatchSource.exactScan ∧
      ∀ g ∈ (SimpleLC.scanOf files fn).1, basenameOf g = fn) ∧
    ((∀ f ∈ files, basenameOf f ≠ fn) →
      (SimpleLC.scanOf files fn).2 = MatchSource.ciScan ∧
      ∀ g ∈ (SimpleLC.scanOf files fn).1,
        lowerStr (basenameOf g) = lowerStr fn) ∧
    ((LC.scanOf files fn).2 = MatchSource.ciScan ↔
      ∀ f ∈ files, LC.exactScanPred fn f = false) := by
  refine ⟨?_, ?_, ?_⟩
  · intro hex
    obtain ⟨f, hf, hb⟩ := hex
    have hmem : f ∈ files.filter (fun g => decide (basenameOf g = fn)) :=
      List.mem_filter.mpr ⟨hf, decide_eq_true hb⟩
    have hne : files.filter (fun g => decide (basenameOf g = fn)) ≠ [] :=
      List.ne_nil_of_mem hmem
    have hemp : (files.filter (fun g => decide (basenameOf g = fn))).isEmpty
        = false := isEmpty_false_of_ne_nil _ hne
    simp only [SimpleLC.scanOf]
    rw [if_neg (by rw [hemp]; exact Bool.false_ne_true)]
    refine ⟨rfl, ?_⟩
    intro g hg
    exact of_decide_eq_true (List.mem_filter.mp hg).2
  · intro hall
    have hnil : files.filter (fun g => decide (basenameOf g = fn)) = [] := by
      rw [List.filter_eq_nil_iff]
      intro g hg
      simp only [decide_eq_true_eq]
      exact hall g hg
    simp only [SimpleLC.scanOf]
    rw [if_pos (by rw [hnil]; rfl)]
    refine ⟨rfl, ?_⟩
    intro g hg
    exact of_decide_eq_true (List.mem_filter.mp hg).2
  · simp only [LC.scanOf]
    by_cases hemp : (files.filter (LC.exactScanPred fn)).isEmpty = true
    · rw [if_pos hemp]
      have hnil : files.filter (LC.exactScanPred fn) = [] := by
        cases hc : files.filter (LC.exactScanPred fn) with
        | nil => rfl
        | cons a as => rw [hc] at hemp; simp [List.isEmpty] at hemp
      constructor
      · intro _
        intro f hf
        by_cases hp : LC.exactScanPred fn f = true
        · exact absurd (List.mem_filter.mpr ⟨hf, hp⟩) (by rw [hnil]; simp)
        · exact Bool.eq_false_iff.mpr hp
      · intro _
        rfl
    · rw [if_neg hemp]
      constructor
      · intro hcontra
        exact absurd hcontra (by simp)
      · intro hall
        exfalso
        apply hemp
        have hnil : files.filter (LC.exactScanPred fn) = [] := by
          rw [List.filter_eq_nil_iff]
          intro g hg
          rw [hall g hg]
          simp
        rw [hnil]
        rfl

/-- Witness for C6 (amended): with a case-sensitive exact match present,
`simple_link_campaign` tags the result ExactFilename; with none,
`link_campaign`'s tag is CaseInsensitiveFilename exactly when no file
passes its first scan. -/
theorem C6_witness :
    (SimpleLC.scanOf ["a/setup.md"] "setup.md").2 = MatchSource.exactScan ∧
    (∀ g ∈ (SimpleLC.scanOf ["a/setup.md"] "setup.md").1,
      basenameOf g = "setup.md") :=
  (C6_scan_order ["a/setup.md"] "setup.md").1 ⟨"a/setup.md", by decide, by decide⟩

/-- C7 counterexample: candidate enumeration comes from iterating the
Python set `all_files`, whose order is not fixed across runs; with two
candidates at equal minimal distance, the two enumeration orders of the
same corpus select different candidates, so the selection is not a fixed
deterministic total order on the unchanged corpus. -/
theorem C7_counterexample :
    ["b/config.md", "a/config.md"] = ["a/config.md", "b/config.md"].reverse ∧
    LC.distance "x/s.md" "a/config.md" = LC.distance "x/s.md" "b/config.md" ∧
    LC.find_best_match [] ["a/config.md", "b/config.md"] "config.md" "x/s.md"
        = some ⟨"../a/config.md", MatchSource.exactScan⟩ ∧
    LC.find_best_match [] ["b/config.md", "a/config.md"] "config.md" "x/s.md"
        = some ⟨"../b/config.md", MatchSource.exactScan⟩ := by
  decide

/-- C7 (amended): selection is deterministic only relative to the
enumeration order of the candidate set: the stable distance sort picks
the first candidate in enumeration order attaining the minimal distance
(everything earlier scores strictly more, everything later at least as
much); across runs the set's enumeration order — and hence the chosen
tie candidate — is not fixed. -/
theorem C7_first_in_enumeration_order (source : String) (cands : List String)
    (x : String) (h : firstMinBy (LC.distance source) cands = some x) :
    ∃ pre post, cands = pre ++ x :: post ∧
      (∀ y ∈ pre, LC.distance source x < LC.distance source y) ∧
      (∀ y ∈ post, LC.distance source x ≤ LC.distance source y) :=
  firstMinBy_spec (LC.distance source) cands x h

/-- Witness for C7 (amended) on the tied two-candidate corpus. -/
theorem C7_witness :
    ∃ pre post, ["a/config.md", "b/config.md"] = pre ++ "a/config.md" :: post ∧
      (∀ y ∈ pre, LC.distance "x/s.md" "a/config.md" < LC.distance "x/s.md" y) ∧
      (∀ y ∈ post, LC.distance "x/s.md" "a/config.md" ≤ LC.distance "x/s.md" y) :=
  C7_first_in_enumeration_order "x/s.md" ["a/config.md", "b/config.md"]
    "a/config.md" (by decide)

/-- C8 counterexample: in `link_campaign.check_links`, targets beginning
with `/` are skipped outright: `/missing.md` does not exist anywhere
under the root (no index path equals its root-relative resolution), yet
the reference is never reported Broken — no existence check or
resolution is applied to it. -/
theorem C8_counterexample :
    (∀ f ∈ ["docs/a.md"],
      splitPath f ≠ normSegs (splitPath (dropFirst "/missing.md"))) ∧
    LC.checkFile [] ["docs/a.md"] "docs/s.md" [⟨"t", "/missing.md"⟩] = [] := by
  decide

/-- C8 (amended): targets beginning with `/` are handled differently by
the two checkers.  `link_campaign` skips them entirely — never checked,
never Broken, for every index.  `check_links.py` first cuts the raw
target at whitespace (`split()[0]`); a single leading `/` then resolves
under the `docs` index root and is existence-checked there — such a
reference is not Broken exactly when the root-relative resolution is in
the index (that script performs no fix resolution for any reference) —
while a protocol-relative `//…` target makes pathlib discard the `docs`
root and check at the filesystem root, outside the corpus, so it is
always reported Broken. -/
theorem C8_slash_links (m : List (String × String)) (files : List String)
    (source t link : String) (h : startsWithS link "/" = true) :
    LC.linkStatus m files source ⟨t, link⟩ = none ∧
    (startsWithS (dropFirst (CheckLinks.firstWord link)) "/" = false →
      (CheckLinks.linkBroken files source link = false ↔
        ∃ f ∈ files, splitPath f
          = normSegs ("docs" :: splitPath (dropFirst (CheckLinks.firstWord link))))) ∧
    (startsWithS (dropFirst (CheckLinks.firstWord link)) "/" = true →
      CheckLinks.linkBroken files source link = true) := by
  obtain ⟨rest, hrest⟩ : ∃ rest, link.data = '/' :: rest := by
    unfold startsWithS at h
    cases hld : link.data with
    | nil =>
      rw [hld] at h
      have h2 : List.isPrefixOf ('/' :: []) ([] : List Char) = true := h
      simp [List.isPrefixOf] at h2
    | cons c cs =>
      rw [hld] at h
      have h2 : ('/' == c && List.isPrefixOf ([] : List Char) cs) = true := h
      simp at h2
      exact ⟨cs, by rw [h2]⟩
  have hskip : LC.skipLC link = true := by
    unfold LC.skipLC
    rw [h]
    simp
  have hfw : (CheckLinks.firstWord link).data
      = '/' :: rest.takeWhile (fun c => !CheckLinks.isPySpace c) := by
    unfold CheckLinks.firstWord
    have hmk : (String.mk ((link.data.dropWhile CheckLinks.isPySpace).takeWhile
        (fun c => !CheckLinks.isPySpace c))).data
        = (link.data.dropWhile CheckLinks.isPySpace).takeWhile
          (fun c => !CheckLinks.isPySpace c) := rfl
    rw [hmk, hrest, List.dropWhile_cons, if_neg (by decide),
      List.takeWhile_cons, if_pos (by decide)]
  have hfwstart : startsWithS (CheckLinks.firstWord link) "/" = true := by
    unfold startsWithS
    rw [hfw]
    show List.isPrefixOf ('/' :: [])
      ('/' :: rest.takeWhile (fun c => !CheckLinks.isPySpace c)) = true
    simp [List.isPrefixOf]
  have hfwne : CheckLinks.firstWord link ≠ "" := by
    intro he
    rw [he] at hfw
    have h0 : ([] : List Char)
        = '/' :: rest.takeWhile (fun c => !CheckLinks.isPySpace c) := hfw
    simp at h0
  have hhttp : startsWithS (CheckLinks.firstWord link) "http" = false := by
    unfold startsWithS
    rw [hfw]
    show List.isPrefixOf ('h' :: 't' :: 't' :: 'p' :: [])
      ('/' :: rest.takeWhile (fun c => !CheckLinks.isPySpace c)) = false
    simp [List.isPrefixOf]
  have hmailto : startsWithS (CheckLinks.firstWord link) "mailto:" = false := by
    unfold startsWithS
    rw [hfw]
    show List.isPrefixOf
      ('m' :: 'a' :: 'i' :: 'l' :: 't' :: 'o' :: ':' :: [])
      ('/' :: rest.takeWhile (fun c => !CheckLinks.isPySpace c)) = false
    simp [List.isPrefixOf]
  have hhash : startsWithS (CheckLinks.firstWord link) "#" = false := by
    unfold startsWithS
    rw [hfw]
    show List.isPrefixOf ('#' :: [])
      ('/' :: rest.takeWhile (fun c => !CheckLinks.isPySpace c)) = false
    simp [List.isPrefixOf]
  have hskipCL : CheckLinks.skipCL (CheckLinks.firstWord link) = false := by
    unfold CheckLinks.skipCL
    rw [hhttp, hmailto, hhash, decide_eq_false hfwne]
    rfl
  refine ⟨by simp [LC.linkStatus, hskip], ?_, ?_⟩
  · intro hns
    have hres : CheckLinks.resolveTarget source (CheckLinks.firstWord link)
        = some (normSegs ("docs"
            :: splitPath (dropFirst (CheckLinks.firstWord link)))) := by
      unfold CheckLinks.resolveTarget
      rw [if_pos hfwstart, if_neg (by rw [hns]; exact Bool.false_ne_true)]
    unfold CheckLinks.linkBroken
    rw [if_neg (by rw [hskipCL]; exact Bool.false_ne_true), hres]
    constructor
    · intro hb
      have hb2 : (!(files.any (fun f => decide (splitPath f
          = normSegs ("docs" :: splitPath (dropFirst (CheckLinks.firstWord link)))))))
          = false := hb
      have hany : files.any (fun f => decide (splitPath f
          = normSegs ("docs" :: splitPath (dropFirst (CheckLinks.firstWord link)))))
          = true := by
        cases hc : files.any (fun f => decide (splitPath f
            = normSegs ("docs" :: splitPath (dropFirst (CheckLinks.firstWord link))))) with
        | false => rw [hc] at hb2; simp at hb2
        | true => rfl
      obtain ⟨f, hf, hdec⟩ := List.any_eq_true.mp hany
      exact ⟨f, hf, of_decide_eq_true hdec⟩
    · intro hex
      obtain ⟨f, hf, heq⟩ := hex
      have hany : files.any (fun f => decide (splitPath f
          = normSegs ("docs" :: splitPath (dropFirst (CheckLinks.firstWord link)))))
          = true := List.any_eq_true.mpr ⟨f, hf, decide_eq_true heq⟩
      show (!(files.any (fun f => decide (splitPath f
          = normSegs ("docs" :: splitPath (dropFirst (CheckLinks.firstWord link)))))))
          = false
      rw [hany]
      rfl
  · intro hpos
    have hres : CheckLinks.resolveTarget source (CheckLinks.firstWord link)
        = none := by
      unfold CheckLinks.resolveTarget
      rw [if_pos hfwstart, if_pos hpos]
    unfold CheckLinks.linkBroken
    rw [if_neg (by rw [hskipCL]; exact Bool.false_ne_true), hres]

/-- Witness for C8 (amended): `/a.md` is skipped by `link_campaign` and
found under the docs root by `check_links.py`. -/
theorem C8_witness :
    LC.linkStatus [] ["docs/a.md"] "docs/s.md" ⟨"t", "/a.md"⟩ = none ∧
    (CheckLinks.linkBroken ["docs/a.md"] "docs/s.md" "/a.md" = false ↔
      ∃ f ∈ ["docs/a.md"], splitPath f
        = normSegs ("docs" :: splitPath (dropFirst (CheckLinks.firstWord "/a.md")))) :=
  ⟨(C8_slash_links [] ["docs/a.md"] "docs/s.md" "t" "/a.md" (by decide)).1,
    (C8_slash_links [] ["docs/a.md"] "docs/s.md" "t" "/a.md" (by decide)).2.1
      (by decide)⟩

/-- C9: in apply mode, for any position of a broken-link entry in the
processing order (`fix_links` sorts entries by link length descending),
the suggested fix is applied only when the exact original syntax
`[text](raw-target)` is still present in the content current at that
point; if it has no suggestion or the syntax is not found, the entry is
demoted to the manual-review list; and the run continues — every entry
of the run ends up counted in exactly one of the fixed or manual-review
lists. -/
theorem C9_verbatim_guard (content : List Ref) (links pre post : List BrokenInfo)
    (li : BrokenInfo)
    (hdec : LC.sortByLinkLenDesc links = pre ++ li :: post) :
    ((li.suggested_fix = none ∨
        LC.patternPresent (LC.fixState content pre).1 li.text li.link = false) →
      li ∈ (LC.fixFileLinks content links).manual) ∧
    (∀ fixS, li.suggested_fix = some fixS →
      LC.patternPresent (LC.fixState content pre).1 li.text li.link = true →
      li ∈ (LC.fixFileLinks content links).fixed) ∧
    (LC.fixFileLinks content links).fixed.length
        + (LC.fixFileLinks content links).manual.length = links.length := by
  have hsplit : LC.fixState content (LC.sortByLinkLenDesc links)
      = post.foldl LC.fixStep (LC.fixStep (LC.fixState content pre) li) := by
    rw [hdec]
    unfold LC.fixState
    rw [List.foldl_append, List.foldl_cons]
  have hfixed : (LC.fixFileLinks content links).fixed
      = (LC.fixState content (LC.sortByLinkLenDesc links)).2.1 := rfl
  have hmanual : (LC.fixFileLinks content links).manual
      = (LC.fixState content (LC.sortByLinkLenDesc links)).2.2 := rfl
  refine ⟨?_, ?_, ?_⟩
  · intro hcase
    rw [hmanual, hsplit]
    apply foldl_fixStep_manual_mono
    rcases hcase with hnone | hfalse
    · simp only [LC.fixStep, hnone]
      exact List.mem_append_right _ (List.mem_cons_self li [])
    · cases hsug : li.suggested_fix with
      | none =>
        simp only [LC.fixStep, hsug]
        exact List.mem_append_right _ (List.mem_cons_self li [])
      | some s =>
        simp only [LC.fixStep, hsug]
        rw [if_neg (by rw [hfalse]; exact Bool.false_ne_true)]
        exact List.mem_append_right _ (List.mem_cons_self li [])
  · intro fixS hsug htrue
    rw [hfixed, hsplit]
    apply foldl_fixStep_fixed_mono
    simp only [LC.fixStep, hsug]
    rw [if_pos htrue]
    exact List.mem_append_right _ (List.mem_cons_self li [])
  · rw [hfixed, hmanual]
    unfold LC.fixState
    rw [foldl_fixStep_length (LC.sortByLinkLenDesc links)
      (content, [], []), sortByLinkLenDesc_length]
    simp

/-- Witness for C9: a stale entry (its syntax no longer in the content)
with a suggestion is demoted to manual review, not silently dropped. -/
theorem C9_witness :
    (⟨"s.md", "t", "gone.md", some "x.md"⟩ : BrokenInfo)
        ∈ (LC.fixFileLinks [⟨"t", "other.md"⟩]
            [⟨"s.md", "t", "gone.md", some "x.md"⟩]).manual :=
  (C9_verbatim_guard [⟨"t", "other.md"⟩] [⟨"s.md", "t", "gone.md", some "x.md"⟩]
    [] [] ⟨"s.md", "t", "gone.md", some "x.md"⟩ (by decide)).1
    (Or.inr (by decide))

/-- C10: in apply mode, a document whose broken references received no
applied fix (no suggestion, or every suggestion failed the
verbatim-syntax guard) has its content unchanged by the run and its file
is not written back; the write happens exactly when some replacement
changed the content. -/
theorem C10_no_fix_no_write (content : List Ref) (links : List BrokenInfo)
    (h : (LC.fixFileLinks content links).fixed = []) :
    (LC.fixFileLinks content links).newContent = content ∧
    (LC.fixFileLinks content links).written = false ∧
    ((LC.fixFileLinks content links).written = true ↔
      (LC.fixFileLinks content links).newContent ≠ content) := by
  have hfixed : (LC.fixFileLinks content links).fixed
      = (LC.fixState content (LC.sortByLinkLenDesc links)).2.1 := rfl
  have hcontent : (LC.fixFileLinks content links).newContent
      = (LC.fixState content (LC.sortByLinkLenDesc links)).1 := rfl
  have hwritten : (LC.fixFileLinks content links).written
      = decide ((LC.fixState content (LC.sortByLinkLenDesc links)).1 ≠ content) :=
    rfl
  rw [hfixed] at h
  have hnil := foldl_fixStep_fixed_nil (LC.sortByLinkLenDesc links)
    (content, [], []) h
  have heq : (LC.fixState content (LC.sortByLinkLenDesc links)).1 = content :=
    hnil.2
  refine ⟨by rw [hcontent, heq], ?_, ?_⟩
  · rw [hwritten, heq]
    exact decide_eq_false (fun hc => hc rfl)
  · rw [hwritten, hcontent, heq]
    constructor
    · intro hd
      exact absurd rfl (of_decide_eq_true hd)
    · intro hd
      exact absurd rfl hd

/-- Witness for C10: a document whose single broken reference has no
suggestion is left unchanged and not written. -/
theorem C10_witness :
    (LC.fixFileLinks [⟨"t", "bad.md"⟩]
        [⟨"s.md", "t", "bad.md", none⟩]).newContent = [⟨"t", "bad.md"⟩] ∧
    (LC.fixFileLinks [⟨"t", "bad.md"⟩]
        [⟨"s.md", "t", "bad.md", none⟩]).written = false ∧
    ((LC.fixFileLinks [⟨"t", "bad.md"⟩]
        [⟨"s.md", "t", "bad.md", none⟩]).written = true ↔
      (LC.fixFileLinks [⟨"t", "bad.md"⟩]
          [⟨"s.md", "t", "bad.md", none⟩]).newContent ≠ [⟨"t", "bad.md"⟩]) :=
  C10_no_fix_no_write [⟨"t", "bad.md"⟩] [⟨"s.md", "t", "bad.md", none⟩] (by decide)
